import Mathlib

/-!
Verification of the GLAM query-generation core of bigquery-etl.

This file gives a shallow embedding of the metric-discovery and
combinatorial query-shape generation logic of the repository:

* `get_distribution_metrics` and `get_metrics_sql` from
  `bigquery_etl/glam/clients_daily_histogram_aggregates.py`, and
* the attribute-combination enumeration loop inside `render_query` from
  `bigquery_etl/glam/probe_counts.py`.

Schemas are nested dictionaries whose `fields` key may be absent; this is
modelled with `Option`.  A Python `KeyError` raised by a missing `fields`
key is modelled by the traversal returning `none`.  Python dictionaries
with string keys are modelled as insertion-ordered association lists.
-/

namespace GlamEtl

/-- One node of a nested schema: a `name` plus an optional list of child
fields, mirroring the duck-typed nested dictionaries returned by the
schema fetcher.  `fields = none` models a dictionary without a `fields`
key. -/
inductive SchemaField : Type where
  | mk (name : String) (fields : Option (List SchemaField))

/-- Name of a schema field. -/
def SchemaField.name : SchemaField → String
  | .mk n _ => n

/-- Children of a schema field, when the `fields` key is present. -/
def SchemaField.fields : SchemaField → Option (List SchemaField)
  | .mk _ f => f

/-- The candidate distribution metric types, in the literal order of the
set displayed in the source (`metric_type_set`). -/
def metricTypeList : List String :=
  ["timing_distribution", "memory_distribution", "custom_distribution"]

/-- The initial catalog: every metric type mapped to an empty list,
modelling the dict comprehension in `get_distribution_metrics`. -/
def initMetrics : List (String × List String) :=
  metricTypeList.map (fun t => (t, ([] : List String)))

/-- Append one value to the list stored at key `k` of an association
list, modelling the statement appending to the list stored in the
metrics dictionary at that key. -/
def appendAt (m : List (String × List String)) (k v : String) :
    List (String × List String) :=
  m.map (fun p => if p.1 = k then (p.1, p.2 ++ [v]) else p)

/-- The innermost loop of `get_distribution_metrics`: append the name of
every leaf field to the list stored for metric type `t`. -/
def processLeafFields (m : List (String × List String)) (t : String)
    (fs : List SchemaField) : List (String × List String) :=
  fs.foldl (fun acc field => appendAt acc t field.name) m

/-- The middle loop of `get_distribution_metrics` over the children of a
matched root field.  Accessing an absent `fields` key of a candidate
metric-type child yields `none` (a Python `KeyError`). -/
def processMetricFields (m : List (String × List String)) :
    List SchemaField → Option (List (String × List String))
  | [] => some m
  | mf :: rest =>
    if mf.name ∈ metricTypeList then
      match mf.fields with
      | none => none
      | some fs => processMetricFields (processLeafFields m mf.name fs) rest
    else
      processMetricFields m rest

/-- The outer loop of `get_distribution_metrics` over top-level schema
fields; fields not named `metrics` are skipped.  Accessing an absent
`fields` key of a matched root field yields `none` (a `KeyError`). -/
def processRootFields (m : List (String × List String)) :
    List SchemaField → Option (List (String × List String))
  | [] => some m
  | rf :: rest =>
    if rf.name = "metrics" then
      match rf.fields with
      | none => none
      | some mfs =>
        match processMetricFields m mfs with
        | none => none
        | some m2 => processRootFields m2 rest
    else
      processRootFields m rest

/-- Embedding of `get_distribution_metrics`: walk the schema and collect
the names of leaf fields found under candidate metric-type children of
top-level fields named `metrics`.  The result is `none` exactly when the
Python function raises `KeyError`. -/
def get_distribution_metrics (schema : List SchemaField) :
    Option (List (String × List String)) :=
  processRootFields initMetrics schema

/-- The raw item accumulation loop of `get_metrics_sql`: for every
`(metric_type, names)` entry of the catalog and every name, the tuple
`(name, metric_type, sum_path, values_path)`. -/
def rawMetricItems (metrics : List (String × List String)) :
    List (String × String × String × String) :=
  metrics.flatMap (fun p =>
    p.2.map (fun name =>
      (name, p.1,
        "metrics." ++ p.1 ++ "." ++ name ++ ".sum",
        "metrics." ++ p.1 ++ "." ++ name ++ ".values")))

/-- Strict lexicographic comparison of character lists by code point,
the way Python compares strings. -/
def charsLt : List Char → List Char → Bool
  | [], [] => false
  | [], _ :: _ => true
  | _ :: _, [] => false
  | c :: cs, d :: ds =>
    if c.toNat < d.toNat then true
    else if d.toNat < c.toNat then false
    else charsLt cs ds

/-- Strict comparison of strings by code points, as Python orders
strings. -/
def strLt (a b : String) : Bool :=
  charsLt a.data b.data

/-- Non-strict string comparison: `a` is at most `b` when `b` is not
strictly below `a`. -/
def strLe (a b : String) : Bool :=
  !(strLt b a)

/-- Non-strict lexicographic comparison of a pair: strictly below in the
first component, or tied there and at most in the second.  Python
compares tuples this way component by component. -/
def lexPairLe {α β : Type} (lta : α → α → Bool) (leb : β → β → Bool)
    (p q : α × β) : Bool :=
  lta p.1 q.1 || (!(lta q.1 p.1) && leb p.2 q.2)

/-- The order used by Python `sorted` on the 4-tuples of
`get_metrics_sql`: lexicographic on the four string components. -/
def tupleLe (a b : String × String × String × String) : Bool :=
  lexPairLe strLt (lexPairLe strLt (lexPairLe strLt strLe)) a b

/-- The tuple order as a relation, for use with the sorting library. -/
def tupleLeRel (a b : String × String × String × String) : Prop :=
  tupleLe a b = true

instance : DecidableRel tupleLeRel :=
  fun a b => inferInstanceAs (Decidable (tupleLe a b = true))

/-- The sorted item list of `get_metrics_sql`, modelling `sorted(items)`.
Python `sorted` is a stable sort by the lexicographic tuple order, as is
insertion sort. -/
def get_metrics_items (metrics : List (String × List String)) :
    List (String × String × String × String) :=
  List.insertionSort tupleLeRel (rawMetricItems metrics)

/-- Rendering of one item as a SQL row constructor, modelling the
f-string of `get_metrics_sql`: name and type double-quoted, the two
paths emitted bare. -/
def renderItem (it : String × String × String × String) : String :=
  "(\"" ++ it.1 ++ "\", \"" ++ it.2.1 ++ "\", " ++ it.2.2.1 ++ ", " ++
    it.2.2.2 ++ ")"

/-- Embedding of `get_metrics_sql`: sort the raw items, render each as a
row constructor and join the fragments with commas. -/
def get_metrics_sql (metrics : List (String × List String)) : String :=
  String.intercalate "," ((get_metrics_items metrics).map renderItem)

/-- Embedding of `itertools.combinations`: all ways to pick `k` elements
of a list keeping their relative order, enumerated in increasing
lexicographic order of the picked index tuples. -/
def combinations {α : Type} : Nat → List α → List (List α)
  | 0, _ => [[]]
  | _ + 1, [] => []
  | k + 1, x :: xs =>
    (combinations k xs).map (fun g => x :: g) ++ combinations (k + 1) xs

/-- Embedding of the enumeration loop of `render_query` in
`probe_counts.py`: for every subset size from `len(attributes)` down to
`0`, every combination of that size that contains both `channel` and
`app_version` contributes the inclusion-flag vector over the full
attribute list. -/
def attributeCombinations (attributes : List String) :
    List (List (String × Bool)) :=
  ((List.range (attributes.length + 1)).reverse).flatMap (fun subsetSize =>
    (combinations subsetSize attributes).filterMap (fun grouping =>
      if grouping.contains "channel" && grouping.contains "app_version" then
        some (attributes.map (fun a => (a, grouping.contains a)))
      else none))

/-- Indices of the flags set to `true` in an inclusion-flag vector. -/
def includedIndices : List (String × Bool) → List Nat
  | [] => []
  | p :: rest =>
    if p.2 then 0 :: (includedIndices rest).map (fun i => i + 1)
    else (includedIndices rest).map (fun i => i + 1)

/-- Number of attributes whose inclusion flag is `true`. -/
def includedCount (c : List (String × Bool)) : Nat :=
  (c.filter (fun p => p.2)).length

/-- Positions of a list at which a Boolean predicate holds. -/
def selectIdx {α : Type} (p : α → Bool) : List α → List Nat
  | [] => []
  | x :: xs =>
    if p x then 0 :: (selectIdx p xs).map (fun i => i + 1)
    else (selectIdx p xs).map (fun i => i + 1)

/-- A schema field whose `fields` entry is present and empty. -/
def hasEmptyFields (c : SchemaField) : Bool :=
  match c.fields with
  | some [] => true
  | _ => false

/-- A child of the root field is harmless for the walker when it is not a
candidate metric type, or its children list is present and empty. -/
def metricChildOK (c : SchemaField) : Bool :=
  !(metricTypeList.contains c.name) || hasEmptyFields c

/-- A top-level field is harmless for the walker when it is not named
`metrics`, or its children list is present and every candidate
metric-type child has a present-but-empty children list. -/
def rootFieldOK (f : SchemaField) : Bool :=
  (f.name != "metrics") ||
    (match f.fields with
     | none => false
     | some cs => cs.all metricChildOK)

/-- Every top-level field of the schema is harmless for the walker. -/
def schemaEmptyOK (schema : List SchemaField) : Bool :=
  schema.all rootFieldOK

theorem fields_of_hasEmptyFields {c : SchemaField}
    (h : hasEmptyFields c = true) : c.fields = some [] := by
  unfold hasEmptyFields at h
  rcases hcf : c.fields with _ | fs
  · rw [hcf] at h; exact absurd h (by simp)
  · rw [hcf] at h
    cases fs with
    | nil => rfl
    | cons a l => exact absurd h (by simp)

theorem processMetricFields_of_children_ok (m : List (String × List String)) :
    ∀ cs : List SchemaField, cs.all metricChildOK = true →
      processMetricFields m cs = some m
  | [], _ => rfl
  | c :: rest, h => by
    rw [List.all_cons, Bool.and_eq_true] at h
    obtain ⟨hc, hrest⟩ := h
    unfold processMetricFields
    by_cases hm : c.name ∈ metricTypeList
    · rw [if_pos hm]
      have hemp : hasEmptyFields c = true := by
        unfold metricChildOK at hc
        rcases Bool.or_eq_true_iff.mp hc with h1 | h1
        · exact absurd hm (by simpa using h1)
        · exact h1
      rw [fields_of_hasEmptyFields hemp]
      exact processMetricFields_of_children_ok m rest hrest
    · rw [if_neg hm]
      exact processMetricFields_of_children_ok m rest hrest

theorem processRootFields_of_schema_ok (m : List (String × List String)) :
    ∀ schema : List SchemaField, schemaEmptyOK schema = true →
      processRootFields m schema = some m
  | [], _ => rfl
  | rf :: rest, h => by
    rw [schemaEmptyOK, List.all_cons, Bool.and_eq_true] at h
    obtain ⟨hf, hrest⟩ := h
    unfold processRootFields
    by_cases hn : rf.name = "metrics"
    · rw [if_pos hn]
      unfold rootFieldOK at hf
      rw [hn] at hf
      simp only [bne_self_eq_false] at hf
      rcases hcf : rf.fields with _ | cs
      · rw [hcf] at hf; exact absurd hf (by simp)
      · rw [hcf] at hf
        simp only [Bool.false_or] at hf
        have hmf := processMetricFields_of_children_ok m cs (by simpa using hf)
        show (match processMetricFields m cs with
              | none => none
              | some m2 => processRootFields m2 rest) = some m
        rw [hmf]
        exact processRootFields_of_schema_ok m rest hrest
    · rw [if_neg hn]
      exact processRootFields_of_schema_ok m rest hrest

/-- C1 (amended): for every schema in which each top-level field named
`metrics` has a present children list whose candidate metric-type
children each carry a present-but-empty children list, the Schema Walker
returns the mapping with an empty list for every metric type rather than
raising an error.  (The original claim, with the children entry absent
instead of empty, fails: see the counterexample.) -/
theorem c1_empty_children_tolerated (schema : List SchemaField)
    (h : schemaEmptyOK schema = true) :
    get_distribution_metrics schema =
      some (metricTypeList.map (fun t => (t, ([] : List String)))) :=
  processRootFields_of_schema_ok initMetrics schema h

/-- Witness for C1: a schema whose `metrics` field has one empty
candidate child and one non-candidate child is tolerated. -/
theorem c1_witness :
    schemaEmptyOK
        [SchemaField.mk "metrics"
          (some [SchemaField.mk "timing_distribution" (some []),
                 SchemaField.mk "other_field" none])] = true ∧
      get_distribution_metrics
          [SchemaField.mk "metrics"
            (some [SchemaField.mk "timing_distribution" (some []),
                   SchemaField.mk "other_field" none])] =
        some (metricTypeList.map (fun t => (t, ([] : List String)))) :=
  ⟨by decide, c1_empty_children_tolerated _ (by decide)⟩

/-- Counterexample for C1 as stated: a top-level field named `metrics`
with no `fields` entry makes `get_distribution_metrics` raise `KeyError`
(modelled as `none`) instead of returning a mapping of empty lists. -/
theorem c1_counterexample :
    get_distribution_metrics [SchemaField.mk "metrics" none] = none := rfl

/-- C8: for every schema with no top-level field named `metrics`, the
Schema Walker returns the mapping in which every candidate metric type is
a key and every value is the empty list. -/
theorem processRootFields_skip (m : List (String × List String)) :
    ∀ schema : List SchemaField, (∀ f ∈ schema, f.name ≠ "metrics") →
      processRootFields m schema = some m
  | [], _ => rfl
  | rf :: rest, h => by
    unfold processRootFields
    rw [if_neg (h rf (List.mem_cons_self rf rest))]
    exact processRootFields_skip m rest (fun f hf => h f (List.mem_cons_of_mem rf hf))

/-- C8: a schema lacking the designated root field produces a catalog
with every candidate metric type present and mapped to the empty list. -/
theorem c8_no_root_field (schema : List SchemaField)
    (h : ∀ f ∈ schema, f.name ≠ "metrics") :
    get_distribution_metrics schema =
      some (metricTypeList.map (fun t => (t, ([] : List String)))) :=
  processRootFields_skip initMetrics schema h

/-- Witness for C8 at a concrete schema without a `metrics` field. -/
theorem c8_witness :
    get_distribution_metrics
        [SchemaField.mk "client_info" none, SchemaField.mk "events" (some [])] =
      some (metricTypeList.map (fun t => (t, ([] : List String)))) :=
  c8_no_root_field _ (by decide)

/-- C9: a catalog that yields zero raw tuples renders to the empty
string rather than raising. -/
theorem c9_zero_tuples_empty_string (metrics : List (String × List String))
    (h : rawMetricItems metrics = []) : get_metrics_sql metrics = "" := by
  unfold get_metrics_sql get_metrics_items
  rw [h]
  rfl

/-- Witness for C9: the catalog mapping every metric type to an empty
list yields zero tuples and the empty string. -/
theorem c9_witness :
    rawMetricItems
        [("timing_distribution", []), ("memory_distribution", []),
         ("custom_distribution", [])] = ([] : List (String × String × String × String)) ∧
      get_metrics_sql
        [("timing_distribution", []), ("memory_distribution", []),
         ("custom_distribution", [])] = "" :=
  ⟨rfl, c9_zero_tuples_empty_string _ rfl⟩

set_option maxRecDepth 4000 in
/-- C7: on the example catalog, `get_metrics_sql` returns exactly the
expected fragment, with name and type double-quoted, paths bare, and the
two row constructors joined by a single comma. -/
theorem c7_example_fragment :
    get_metrics_sql
        [("timing_distribution", ["load_time", "render_time"]),
         ("memory_distribution", []), ("custom_distribution", [])] =
      "(\"load_time\", \"timing_distribution\", metrics.timing_distribution.load_time.sum, metrics.timing_distribution.load_time.values),(\"render_time\", \"timing_distribution\", metrics.timing_distribution.render_time.sum, metrics.timing_distribution.render_time.values)" := by
  decide

theorem charsLt_self : ∀ l : List Char, charsLt l l = false
  | [] => rfl
  | c :: cs => by
    simp only [charsLt, Nat.lt_irrefl, if_false]
    exact charsLt_self cs

theorem charsLt_trans :
    ∀ a b c : List Char, charsLt a b = true → charsLt b c = true →
      charsLt a c = true
  | [], [], _, h1, _ => by simp [charsLt] at h1
  | [], _ :: _, [], _, h2 => by simp [charsLt] at h2
  | [], _ :: _, _ :: _, _, _ => by simp [charsLt]
  | _ :: _, [], _, h1, _ => by simp [charsLt] at h1
  | _ :: _, _ :: _, [], _, h2 => by simp [charsLt] at h2
  | a :: as, b :: bs, c :: cs, h1, h2 => by
    simp only [charsLt] at h1 h2 ⊢
    by_cases hab : a.toNat < b.toNat
    · by_cases hbc : b.toNat < c.toNat
      · rw [if_pos (Nat.lt_trans hab hbc)]
      · rw [if_neg hbc] at h2
        by_cases hcb : c.toNat < b.toNat
        · rw [if_pos hcb] at h2; exact absurd h2 (by simp)
        · have heq : b.toNat = c.toNat :=
            Nat.le_antisymm (Nat.le_of_not_lt hcb) (Nat.le_of_not_lt hbc)
          rw [if_pos (heq ▸ hab)]
    · rw [if_neg hab] at h1
      by_cases hba : b.toNat < a.toNat
      · rw [if_pos hba] at h1; exact absurd h1 (by simp)
      · rw [if_neg hba] at h1
        have heq : a.toNat = b.toNat :=
          Nat.le_antisymm (Nat.le_of_not_lt hba) (Nat.le_of_not_lt hab)
        by_cases hbc : b.toNat < c.toNat
        · rw [if_pos (heq ▸ hbc)]
        · rw [if_neg hbc] at h2
          by_cases hcb : c.toNat < b.toNat
          · rw [if_pos hcb] at h2; exact absurd h2 (by simp)
          · rw [if_neg hcb] at h2
            rw [if_neg (heq ▸ hbc), if_neg (heq ▸ hcb)]
            exact charsLt_trans as bs cs h1 h2

theorem charsLt_asymm :
    ∀ a b : List Char, charsLt a b = true → charsLt b a = false
  | [], [], h => by simp [charsLt] at h
  | [], _ :: _, _ => by simp [charsLt]
  | _ :: _, [], h => by simp [charsLt] at h
  | a :: as, b :: bs, h => by
    simp only [charsLt] at h ⊢
    by_cases hab : a.toNat < b.toNat
    · rw [if_neg (Nat.lt_asymm hab), if_pos hab]
    · rw [if_neg hab] at h
      by_cases hba : b.toNat < a.toNat
      · rw [if_pos hba] at h; exact absurd h (by simp)
      · rw [if_neg hba] at h
        rw [if_neg hba, if_neg hab]
        exact charsLt_asymm as bs h

theorem charsLt_eq_of_not :
    ∀ a b : List Char, charsLt a b = false → charsLt b a = false → a = b
  | [], [], _, _ => rfl
  | [], _ :: _, h1, _ => by simp [charsLt] at h1
  | _ :: _, [], _, h2 => by simp [charsLt] at h2
  | a :: as, b :: bs, h1, h2 => by
    simp only [charsLt] at h1 h2
    by_cases hab : a.toNat < b.toNat
    · rw [if_pos hab] at h1; exact absurd h1 (by simp)
    · by_cases hba : b.toNat < a.toNat
      · rw [if_pos hba] at h2; exact absurd h2 (by simp)
      · rw [if_neg hab, if_neg hba] at h1
        rw [if_neg hba, if_neg hab] at h2
        have hc : a = b :=
          Char.eq_of_val_eq (UInt32.eq_of_val_eq (Fin.eq_of_val_eq
            (Nat.le_antisymm (Nat.le_of_not_lt hba) (Nat.le_of_not_lt hab))))
        rw [hc, charsLt_eq_of_not as bs h1 h2]

theorem strLt_trans : ∀ a b c : String, strLt a b = true →
    strLt b c = true → strLt a c = true :=
  fun a b c h1 h2 => charsLt_trans a.data b.data c.data h1 h2

theorem strLt_asymm : ∀ a b : String, strLt a b = true →
    strLt b a = false :=
  fun a b h => charsLt_asymm a.data b.data h

theorem strLt_eq_of_not : ∀ a b : String, strLt a b = false →
    strLt b a = false → a = b := by
  intro a b h1 h2
  cases a; cases b
  exact congrArg String.mk (charsLt_eq_of_not _ _ h1 h2)

theorem strLt_self (a : String) : strLt a a = false :=
  charsLt_self a.data

theorem strLe_trans :
    ∀ x y z : String, strLe x y = true → strLe y z = true →
      strLe x z = true := by
  intro x y z h1 h2
  unfold strLe at h1 h2 ⊢
  rw [Bool.not_eq_true'] at h1 h2 ⊢
  cases hzx : strLt z x with
  | false => rfl
  | true =>
    cases hyz : strLt y z with
    | true =>
      have hyx := strLt_trans _ _ _ hyz hzx
      simp [h1] at hyx
    | false =>
      have heq : y = z := strLt_eq_of_not _ _ hyz h2
      rw [← heq, h1] at hzx
      exact hzx.symm

theorem strLe_total (x y : String) :
    strLe x y = true ∨ strLe y x = true := by
  unfold strLe
  cases hxy : strLt x y with
  | true => exact Or.inl (by rw [strLt_asymm _ _ hxy]; rfl)
  | false => exact Or.inr rfl

theorem lexPairLe_trans {α β : Type} {lta : α → α → Bool}
    {leb : β → β → Bool}
    (t1 : ∀ x y z, lta x y = true → lta y z = true → lta x z = true)
    (a1 : ∀ x y, lta x y = true → lta y x = false)
    (e1 : ∀ x y, lta x y = false → lta y x = false → x = y)
    (t2 : ∀ x y z, leb x y = true → leb y z = true → leb x z = true) :
    ∀ p q r, lexPairLe lta leb p q = true → lexPairLe lta leb q r = true →
      lexPairLe lta leb p r = true := by
  intro p q r h1 h2
  unfold lexPairLe at h1 h2 ⊢
  simp only [Bool.or_eq_true, Bool.and_eq_true, Bool.not_eq_true'] at h1 h2 ⊢
  rcases h1 with hA | ⟨hA1, hA2⟩
  · rcases h2 with hB | ⟨hB1, hB2⟩
    · exact Or.inl (t1 _ _ _ hA hB)
    · cases hqr : lta q.1 r.1 with
      | true => exact Or.inl (t1 _ _ _ hA hqr)
      | false =>
        have heq : q.1 = r.1 := e1 _ _ hqr hB1
        exact Or.inl (by rw [← heq]; exact hA)
  · rcases h2 with hB | ⟨hB1, hB2⟩
    · cases hpq : lta p.1 q.1 with
      | true => exact Or.inl (t1 _ _ _ hpq hB)
      | false =>
        have heq : p.1 = q.1 := e1 _ _ hpq hA1
        exact Or.inl (by rw [heq]; exact hB)
    · cases hpq : lta p.1 q.1 with
      | true =>
        cases hqr : lta q.1 r.1 with
        | true => exact Or.inl (t1 _ _ _ hpq hqr)
        | false =>
          have heq : q.1 = r.1 := e1 _ _ hqr hB1
          exact Or.inl (by rw [← heq]; exact hpq)
      | false =>
        have heq : p.1 = q.1 := e1 _ _ hpq hA1
        cases hqr : lta q.1 r.1 with
        | true => exact Or.inl (by rw [heq]; exact hqr)
        | false =>
          have heq2 : q.1 = r.1 := e1 _ _ hqr hB1
          refine Or.inr ⟨?_, t2 _ _ _ hA2 hB2⟩
          have heq3 : p.1 = r.1 := heq.trans heq2
          rw [← heq3]
          cases hself : lta p.1 p.1 with
          | false => rfl
          | true =>
            have hfalse := a1 _ _ hself
            rw [hself] at hfalse
            exact hfalse

theorem lexPairLe_total {α β : Type} {lta : α → α → Bool}
    {leb : β → β → Bool}
    (tot2 : ∀ x y, leb x y = true ∨ leb y x = true) :
    ∀ p q, lexPairLe lta leb p q = true ∨ lexPairLe lta leb q p = true := by
  intro p q
  unfold lexPairLe
  simp only [Bool.or_eq_true, Bool.and_eq_true, Bool.not_eq_true']
  cases hpq : lta p.1 q.1 with
  | true => exact Or.inl (Or.inl rfl)
  | false =>
    cases hqp : lta q.1 p.1 with
    | true => exact Or.inr (Or.inl rfl)
    | false =>
      rcases tot2 p.2 q.2 with h | h
      · exact Or.inl (Or.inr ⟨rfl, h⟩)
      · exact Or.inr (Or.inr ⟨rfl, h⟩)

instance : IsTrans (String × String × String × String) tupleLeRel :=
  ⟨fun a b c h1 h2 => by
    have h1b : lexPairLe strLt (lexPairLe strLt (lexPairLe strLt strLe))
        a b = true := h1
    have h2b : lexPairLe strLt (lexPairLe strLt (lexPairLe strLt strLe))
        b c = true := h2
    exact lexPairLe_trans strLt_trans strLt_asymm strLt_eq_of_not
      (lexPairLe_trans strLt_trans strLt_asymm strLt_eq_of_not
        (lexPairLe_trans strLt_trans strLt_asymm strLt_eq_of_not strLe_trans))
      a b c h1b h2b⟩

instance : IsTotal (String × String × String × String) tupleLeRel :=
  ⟨fun a b => by
    show lexPairLe strLt (lexPairLe strLt (lexPairLe strLt strLe)) a b = true
      ∨ lexPairLe strLt (lexPairLe strLt (lexPairLe strLt strLe)) b a = true
    exact lexPairLe_total (lexPairLe_total (lexPairLe_total strLe_total)) a b⟩

/-- C6: the item sequence rendered by `get_metrics_sql` is sorted: for
any two items, the earlier one's `(name, type)` pair is lexicographically
less than or equal to the later one's, for every input catalog. -/
theorem c6_fragment_sorted (metrics : List (String × List String)) :
    List.Pairwise
      (fun a b : String × String × String × String =>
        strLt a.1 b.1 = true ∨ (a.1 = b.1 ∧ strLe a.2.1 b.2.1 = true))
      (get_metrics_items metrics) := by
  have h := List.sorted_insertionSort tupleLeRel (rawMetricItems metrics)
  refine List.Pairwise.imp ?_ h
  intro a b hab
  have hab2 : lexPairLe strLt (lexPairLe strLt (lexPairLe strLt strLe)) a b
      = true := hab
  unfold lexPairLe at hab2
  simp only [Bool.or_eq_true, Bool.and_eq_true, Bool.not_eq_true'] at hab2
  rcases hab2 with h1 | ⟨h1, h2⟩
  · exact Or.inl h1
  · cases hpq : strLt a.1 b.1 with
    | true => exact Or.inl rfl
    | false =>
      refine Or.inr ⟨strLt_eq_of_not _ _ hpq h1, ?_⟩
      rcases h2 with h3 | ⟨h3, _⟩
      · unfold strLe; rw [strLt_asymm _ _ h3]; rfl
      · unfold strLe; rw [h3]; rfl

/-- C2 (amended): the Metric Tuple Builder sorts but does not
deduplicate: the rendered items are exactly the raw tuples of the
catalog, with multiplicity, reordered.  A `(name, type)` pair occurring
more than once therefore contributes its row constructor more than once,
without any error. -/
theorem c2_sorted_without_dedup (metrics : List (String × List String)) :
    (get_metrics_items metrics).Perm (rawMetricItems metrics) :=
  List.perm_insertionSort tupleLeRel (rawMetricItems metrics)

set_option maxRecDepth 8000 in
/-- Counterexample for C2 as stated: a catalog in which the pair
`(a, timing_distribution)` occurs twice renders that row constructor
twice, not once. -/
theorem c2_counterexample :
    List.count
        ("a", "timing_distribution", "metrics.timing_distribution.a.sum",
          "metrics.timing_distribution.a.values")
        (get_metrics_items [("timing_distribution", ["a", "a"])]) = 2 ∧
      get_metrics_sql [("timing_distribution", ["a", "a"])] =
        "(\"a\", \"timing_distribution\", metrics.timing_distribution.a.sum, metrics.timing_distribution.a.values),(\"a\", \"timing_distribution\", metrics.timing_distribution.a.sum, metrics.timing_distribution.a.values)" :=
  ⟨by decide, by decide⟩

theorem sublist_of_mem_combinations {α : Type} :
    ∀ (k : Nat) (l g : List α), g ∈ combinations k l → g.Sublist l
  | 0, l, g, h => by
    simp only [combinations, List.mem_singleton] at h
    rw [h]
    exact List.nil_sublist l
  | _ + 1, [], g, h => by simp [combinations] at h
  | k + 1, x :: xs, g, h => by
    rw [combinations] at h
    rcases List.mem_append.mp h with h1 | h1
    · rcases List.mem_map.mp h1 with ⟨g0, hg0, rfl⟩
      exact List.Sublist.cons₂ x (sublist_of_mem_combinations k xs g0 hg0)
    · exact List.Sublist.cons x (sublist_of_mem_combinations (k + 1) xs g h1)

theorem length_of_mem_combinations {α : Type} :
    ∀ (k : Nat) (l g : List α), g ∈ combinations k l → g.length = k
  | 0, _, g, h => by
    simp only [combinations, List.mem_singleton] at h
    rw [h]
    rfl
  | _ + 1, [], g, h => by simp [combinations] at h
  | k + 1, x :: xs, g, h => by
    rw [combinations] at h
    rcases List.mem_append.mp h with h1 | h1
    · rcases List.mem_map.mp h1 with ⟨g0, hg0, rfl⟩
      simp [length_of_mem_combinations k xs g0 hg0]
    · exact length_of_mem_combinations (k + 1) xs g h1

/-- Membership shape of the enumerator output: every emitted combination
is the flag vector of some grouping that contains both required
attributes. -/
theorem mem_attributeCombinations {attributes : List String}
    {combo : List (String × Bool)}
    (hc : combo ∈ attributeCombinations attributes) :
    ∃ k, ∃ g ∈ combinations k attributes,
      g.contains "channel" = true ∧ g.contains "app_version" = true ∧
        combo = attributes.map (fun a => (a, g.contains a)) := by
  unfold attributeCombinations at hc
  rcases List.mem_flatMap.mp hc with ⟨k, _, hcomb⟩
  rcases List.mem_filterMap.mp hcomb with ⟨g, hg, hsome⟩
  by_cases hcond : (g.contains "channel" && g.contains "app_version") = true
  · rw [if_pos hcond] at hsome
    obtain ⟨h1, h2⟩ := Bool.and_eq_true_iff.mp hcond
    exact ⟨k, g, hg, h1, h2, (Option.some.inj hsome).symm⟩
  · rw [if_neg hcond] at hsome
    exact absurd hsome (by simp)

/-- C3: every combination emitted by the enumerator has its inclusion
flag set to `true` for the required attributes `channel` and
`app_version`; consequently, if either required attribute is missing
from the attribute list, the emitted sequence is empty. -/
theorem c3_required_flags_true (attributes : List String) :
    (∀ combo ∈ attributeCombinations attributes, ∀ p ∈ combo,
        (p.1 = "channel" ∨ p.1 = "app_version") → p.2 = true)
    ∧ (("channel" ∉ attributes ∨ "app_version" ∉ attributes) →
        attributeCombinations attributes = []) := by
  constructor
  · intro combo hc p hp hreq
    obtain ⟨k, g, _, hch, hav, hcombo⟩ := mem_attributeCombinations hc
    rw [hcombo] at hp
    rcases List.mem_map.mp hp with ⟨a, _, rfl⟩
    rcases hreq with h | h <;> simp only at h <;> rw [h]
    · exact hch
    · exact hav
  · intro hmiss
    by_contra hne
    obtain ⟨combo, hc⟩ := List.exists_mem_of_ne_nil _ hne
    obtain ⟨k, g, hg, hch, hav, _⟩ := mem_attributeCombinations hc
    have hsub := (sublist_of_mem_combinations k attributes g hg).subset
    rcases hmiss with h | h
    · exact h (hsub (List.elem_iff.mp hch))
    · exact h (hsub (List.elem_iff.mp hav))

/-- Witness for C3: with `app_version` absent from the attribute list,
the enumerator emits nothing. -/
theorem c3_witness :
    attributeCombinations ["os", "channel"] = [] :=
  (c3_required_flags_true ["os", "channel"]).2 (Or.inr (by decide))

/-- Leaf names contributed for metric type `t` by a list of children of
the root field: for each child named `t`, the names of its children. -/
def innerNames (mfs : List SchemaField) (t : String) : List String :=
  (mfs.filter (fun c => c.name == t)).flatMap
    (fun c => (c.fields.getD []).map SchemaField.name)

/-- Leaf names the walker is expected to collect for metric type `t`:
for each top-level field named `metrics`, the contribution of its
children. -/
def expectedNames (schema : List SchemaField) (t : String) : List String :=
  (schema.filter (fun f => f.name == "metrics")).flatMap
    (fun f => innerNames (f.fields.getD []) t)

theorem appendAt_canonical (A : String → List String) (ty v : String) :
    appendAt (metricTypeList.map (fun t => (t, A t))) ty v =
      metricTypeList.map (fun t => (t, A t ++ (if t = ty then [v] else []))) := by
  unfold appendAt
  rw [List.map_map]
  apply List.map_congr_left
  intro t ht
  by_cases h : t = ty
  · simp [h]
  · simp [h]

theorem processLeafFields_canonical (ty : String) :
    ∀ (fs : List SchemaField) (A : String → List String),
      processLeafFields (metricTypeList.map (fun t => (t, A t))) ty fs =
        metricTypeList.map
          (fun t =>
            (t, A t ++ (if t = ty then fs.map SchemaField.name else []))) := by
  intro fs
  induction fs with
  | nil =>
    intro A
    show metricTypeList.map (fun t => (t, A t)) = _
    apply List.map_congr_left
    intro t ht
    by_cases h : t = ty <;> simp [h]
  | cons f rest ih =>
    intro A
    show processLeafFields
        (appendAt (metricTypeList.map (fun t => (t, A t))) ty f.name) ty rest = _
    rw [appendAt_canonical A ty f.name]
    have hrec := ih (fun t => A t ++ (if t = ty then [f.name] else []))
    refine hrec.trans ?_
    apply List.map_congr_left
    intro t ht
    by_cases h : t = ty <;> simp [h]

theorem processMetricFields_canonical :
    ∀ (mfs : List SchemaField) (A : String → List String)
      (m2 : List (String × List String)),
      processMetricFields (metricTypeList.map (fun t => (t, A t))) mfs =
          some m2 →
        m2 = metricTypeList.map (fun t => (t, A t ++ innerNames mfs t))
  | [], A, m2, h => by
    have heq := Option.some.inj h
    rw [← heq]
    apply List.map_congr_left
    intro t ht
    simp [innerNames]
  | mf :: rest, A, m2, h => by
    rw [processMetricFields] at h
    by_cases hm : mf.name ∈ metricTypeList
    · rw [if_pos hm] at h
      rcases hcf : mf.fields with _ | fs
      · rw [hcf] at h; exact absurd h (by simp)
      · rw [hcf] at h
        replace h : processMetricFields
            (processLeafFields (metricTypeList.map (fun t => (t, A t)))
              mf.name fs) rest = some m2 := h
        rw [processLeafFields_canonical mf.name fs A] at h
        have hrec := processMetricFields_canonical rest
          (fun t => A t ++ (if t = mf.name then fs.map SchemaField.name else []))
          m2 h
        rw [hrec]
        apply List.map_congr_left
        intro t ht
        have hexp : innerNames (mf :: rest) t =
            (if t = mf.name then fs.map SchemaField.name else []) ++
              innerNames rest t := by
          unfold innerNames
          rw [List.filter_cons]
          by_cases hteq : t = mf.name
          · have hbeq : (mf.name == t) = true := by simp [hteq]
            rw [if_pos hbeq, List.flatMap_cons, hcf]
            simp [hteq]
          · have hbeq : (mf.name == t) = false := by
              simp only [beq_eq_false_iff_ne]
              exact fun hcontra => hteq hcontra.symm
            rw [hbeq]
            simp [hteq]
        rw [hexp]
        simp [List.append_assoc]
    · rw [if_neg hm] at h
      have hrec := processMetricFields_canonical rest A m2 h
      rw [hrec]
      apply List.map_congr_left
      intro t ht
      have hexp : innerNames (mf :: rest) t = innerNames rest t := by
        unfold innerNames
        rw [List.filter_cons]
        have hbeq : (mf.name == t) = false := by
          simp only [beq_eq_false_iff_ne]
          intro hcontra
          exact hm (hcontra ▸ ht)
        rw [hbeq]
        simp
      rw [hexp]

theorem processRootFields_canonical :
    ∀ (schema : List SchemaField) (A : String → List String)
      (m2 : List (String × List String)),
      processRootFields (metricTypeList.map (fun t => (t, A t))) schema =
          some m2 →
        m2 = metricTypeList.map (fun t => (t, A t ++ expectedNames schema t))
  | [], A, m2, h => by
    have heq := Option.some.inj h
    rw [← heq]
    apply List.map_congr_left
    intro t ht
    simp [expectedNames]
  | rf :: rest, A, m2, h => by
    rw [processRootFields] at h
    by_cases hn : rf.name = "metrics"
    · rw [if_pos hn] at h
      rcases hcf : rf.fields with _ | mfs
      · rw [hcf] at h; exact absurd h (by simp)
      · rw [hcf] at h
        replace h : (match processMetricFields
              (metricTypeList.map (fun t => (t, A t))) mfs with
            | none => none
            | some m3 => processRootFields m3 rest) = some m2 := h
        rcases hpmf : processMetricFields
            (metricTypeList.map (fun t => (t, A t))) mfs with _ | m1
        · rw [hpmf] at h; exact absurd h (by simp)
        · rw [hpmf] at h
          replace h : processRootFields m1 rest = some m2 := h
          have hm1 := processMetricFields_canonical mfs A m1 hpmf
          rw [hm1] at h
          have hrec := processRootFields_canonical rest
            (fun t => A t ++ innerNames mfs t) m2 h
          rw [hrec]
          apply List.map_congr_left
          intro t ht
          have hexp : expectedNames (rf :: rest) t =
              innerNames mfs t ++ expectedNames rest t := by
            unfold expectedNames
            rw [List.filter_cons]
            have hbeq : (rf.name == "metrics") = true := by simp [hn]
            rw [if_pos hbeq, List.flatMap_cons, hcf]
            rfl
          rw [hexp]
          simp [List.append_assoc]
    · rw [if_neg hn] at h
      have hrec := processRootFields_canonical rest A m2 h
      rw [hrec]
      apply List.map_congr_left
      intro t ht
      have hexp : expectedNames (rf :: rest) t = expectedNames rest t := by
        unfold expectedNames
        rw [List.filter_cons]
        have hbeq : (rf.name == "metrics") = false := by simp [hn]
        rw [hbeq]
        simp
      rw [hexp]

/-- C5: for every schema with at most one top-level field named
`metrics` on which the walker succeeds, the output maps each candidate
metric type to exactly the names of the leaf children found under the
children of the root field carrying that type, in schema order: nothing
is invented, nothing is dropped, and per-type order is preserved. -/
theorem c5_walker_output_exact (schema : List SchemaField)
    (m : List (String × List String))
    (hone : schema.countP (fun f => f.name == "metrics") ≤ 1)
    (h : get_distribution_metrics schema = some m) :
    m = metricTypeList.map (fun t => (t, expectedNames schema t)) := by
  unfold get_distribution_metrics at h
  have hrw := processRootFields_canonical schema
    (fun _ => ([] : List String)) m h
  rw [hrw]
  apply List.map_congr_left
  intro t ht
  simp

/-- Witness for C5 at the schema of the worked example in the spec. -/
theorem c5_witness :
    ([("timing_distribution", ["load_time", "render_time"]),
      ("memory_distribution", []), ("custom_distribution", [])] :
        List (String × List String)) =
      metricTypeList.map (fun t =>
        (t, expectedNames
          [SchemaField.mk "metrics"
            (some [SchemaField.mk "timing_distribution"
              (some [SchemaField.mk "load_time" none,
                     SchemaField.mk "render_time" none])])] t)) :=
  c5_walker_output_exact _ _ (by decide) (by decide)

theorem selectIdx_congr {α : Type} {p q : α → Bool} :
    ∀ l : List α, (∀ a ∈ l, p a = q a) → selectIdx p l = selectIdx q l
  | [], _ => rfl
  | x :: xs, h => by
    have hx := h x (List.mem_cons_self x xs)
    have hrest := selectIdx_congr xs (fun a ha => h a (List.mem_cons_of_mem x ha))
    rw [selectIdx, selectIdx, hx, hrest]

theorem selectIdx_length {α : Type} (p : α → Bool) :
    ∀ l : List α, (selectIdx p l).length = (l.filter p).length
  | [] => rfl
  | x :: xs => by
    rw [selectIdx, List.filter_cons]
    cases hx : p x with
    | true => simp [selectIdx_length p xs]
    | false => simp [selectIdx_length p xs]

theorem selectIdx_ne_nil {α : Type} {p : α → Bool} {a : α} :
    ∀ l : List α, a ∈ l → p a = true → selectIdx p l ≠ []
  | [], ha, _ => absurd ha (List.not_mem_nil a)
  | x :: xs, ha, hpa => by
    rw [selectIdx]
    by_cases hx : p x = true
    · rw [if_pos hx]
      simp
    · rw [if_neg hx]
      rcases List.mem_cons.mp ha with h | h
      · rw [← h] at hx
        exact absurd hpa hx
      · intro hmap
        exact selectIdx_ne_nil xs h hpa (List.map_eq_nil_iff.mp hmap)

theorem lex_map_succ {A B : List Nat} (h : List.Lex (fun a b => a < b) A B) :
    List.Lex (fun a b => a < b)
      (A.map (fun i => i + 1)) (B.map (fun i => i + 1)) := by
  induction h with
  | nil => exact List.Lex.nil
  | cons _ ih => exact List.Lex.cons ih
  | rel h => exact List.Lex.rel (Nat.add_lt_add_right h 1)

theorem contains_eq_false_of_not_mem {g : List String} {x : String}
    (h : x ∉ g) : g.contains x = false := by
  rw [List.contains_eq_any_beq, List.any_eq_false]
  intro a ha hbeq
  rw [← eq_of_beq hbeq] at ha
  exact h ha

theorem filter_contains_of_sublist :
    ∀ {g l : List String}, g.Sublist l → l.Nodup →
      l.filter (fun a => g.contains a) = g
  | _, _, List.Sublist.slnil, _ => rfl
  | g, a :: l2, List.Sublist.cons _ hsub, hnd => by
    obtain ⟨hna, hnd2⟩ := List.nodup_cons.mp hnd
    rw [List.filter_cons]
    have hngc : g.contains a = false :=
      contains_eq_false_of_not_mem (fun hag => hna (hsub.subset hag))
    rw [hngc]
    simp only [Bool.false_eq_true, if_false]
    exact filter_contains_of_sublist hsub hnd2
  | a :: g2, _ :: l2, List.Sublist.cons₂ _ hsub, hnd => by
    obtain ⟨hna, hnd2⟩ := List.nodup_cons.mp hnd
    rw [List.filter_cons]
    have hac : ((a :: g2).contains a) = true := by simp
    rw [hac]
    simp only [if_true]
    have hcongr : l2.filter (fun x => (a :: g2).contains x) =
        l2.filter (fun x => g2.contains x) :=
      List.filter_congr (fun x hx => by
        have hxa : x ≠ a := fun hcontra => hna (hcontra ▸ hx)
        rw [List.contains_cons, beq_eq_false_iff_ne.mpr hxa, Bool.false_or])
    rw [hcongr]
    rw [filter_contains_of_sublist hsub hnd2]

theorem selectIdx_cons_of_head {x : String} {xs : List String}
    (hx : x ∉ xs) (g : List String) :
    selectIdx (fun a => (x :: g).contains a) (x :: xs) =
      0 :: (selectIdx (fun a => g.contains a) xs).map (fun i => i + 1) := by
  rw [selectIdx]
  have hhead : ((x :: g).contains x) = true := by simp
  rw [if_pos hhead]
  have hcongr : selectIdx (fun a => (x :: g).contains a) xs =
      selectIdx (fun a => g.contains a) xs :=
    selectIdx_congr xs (fun a ha => by
      have hax : a ≠ x := fun hcontra => hx (hcontra ▸ ha)
      rw [List.contains_cons, beq_eq_false_iff_ne.mpr hax, Bool.false_or])
  rw [hcongr]

theorem selectIdx_cons_of_not_contains {x : String} {xs g : List String}
    (hxg : g.contains x = false) :
    selectIdx (fun a => g.contains a) (x :: xs) =
      (selectIdx (fun a => g.contains a) xs).map (fun i => i + 1) := by
  rw [selectIdx, if_neg]
  rw [hxg]
  simp

/-- Within one subset size, `itertools.combinations` enumerates
groupings in strictly increasing lexicographic order of the index tuples
of the picked positions. -/
theorem pairwise_lex_combinations :
    ∀ (l : List String), l.Nodup → ∀ k : Nat,
      List.Pairwise
        (fun g1 g2 => List.Lex (fun a b => a < b)
          (selectIdx (fun a => g1.contains a) l)
          (selectIdx (fun a => g2.contains a) l))
        (combinations k l) := by
  intro l
  induction l with
  | nil =>
    intro _ k
    cases k with
    | zero => simp [combinations]
    | succ j => simp [combinations]
  | cons x xs ih =>
    intro hnd k
    obtain ⟨hx, hnd2⟩ := List.nodup_cons.mp hnd
    cases k with
    | zero => simp [combinations]
    | succ j =>
      rw [combinations, List.pairwise_append]
      refine ⟨?_, ?_, ?_⟩
      · rw [List.pairwise_map]
        refine (ih hnd2 j).imp ?_
        intro g1 g2 hlex
        rw [selectIdx_cons_of_head hx g1, selectIdx_cons_of_head hx g2]
        exact List.Lex.cons (lex_map_succ hlex)
      · refine (ih hnd2 (j + 1)).imp_of_mem ?_
        intro g1 g2 hg1 hg2 hlex
        have hs1 := sublist_of_mem_combinations (j + 1) xs g1 hg1
        have hs2 := sublist_of_mem_combinations (j + 1) xs g2 hg2
        have hc1 : g1.contains x = false :=
          contains_eq_false_of_not_mem (fun hmem => hx (hs1.subset hmem))
        have hc2 : g2.contains x = false :=
          contains_eq_false_of_not_mem (fun hmem => hx (hs2.subset hmem))
        rw [selectIdx_cons_of_not_contains hc1,
          selectIdx_cons_of_not_contains hc2]
        exact lex_map_succ hlex
      · intro c1 h1 c2 h2
        rcases List.mem_map.mp h1 with ⟨g1, _, rfl⟩
        have hs2 := sublist_of_mem_combinations (j + 1) xs c2 h2
        have hc2 : c2.contains x = false :=
          contains_eq_false_of_not_mem (fun hmem => hx (hs2.subset hmem))
        rw [selectIdx_cons_of_head hx g1, selectIdx_cons_of_not_contains hc2]
        have hlen := length_of_mem_combinations (j + 1) xs c2 h2
        have hne : c2 ≠ [] := by
          intro hcontra
          rw [hcontra] at hlen
          exact absurd hlen.symm (Nat.succ_ne_zero j)
        obtain ⟨a, ha⟩ := List.exists_mem_of_ne_nil c2 hne
        have hmemc : (fun b => c2.contains b) a = true := by simpa using ha
        have hsel := @selectIdx_ne_nil _ (fun b => c2.contains b) a xs
          (hs2.subset ha) hmemc
        rcases hfoo : selectIdx (fun b => c2.contains b) xs with _ | ⟨i, rest⟩
        · exact absurd hfoo hsel
        · rw [List.map_cons]
          exact List.Lex.rel (Nat.succ_pos i)

theorem includedIndices_map :
    ∀ (l : List String) (p : String → Bool),
      includedIndices (l.map (fun a => (a, p a))) = selectIdx p l
  | [], _ => rfl
  | x :: xs, p => by
    simp only [List.map_cons, includedIndices, selectIdx,
      includedIndices_map xs p]

theorem includedCount_combo {attrs g : List String} (hnd : attrs.Nodup)
    (hsub : g.Sublist attrs) :
    includedCount (attrs.map (fun a => (a, g.contains a))) = g.length := by
  unfold includedCount
  rw [List.filter_map, List.length_map]
  have hcongr : attrs.filter
      ((fun p : String × Bool => p.2) ∘ (fun a => (a, g.contains a))) =
        attrs.filter (fun a => g.contains a) :=
    List.filter_congr (fun a _ => rfl)
  rw [hcongr, filter_contains_of_sublist hsub hnd]

theorem filterMap_if_eq {α β : Type} (p : α → Bool) (f : α → β) :
    ∀ l : List α,
      l.filterMap (fun a => if p a then some (f a) else none) =
        (l.filter p).map f
  | [] => rfl
  | x :: xs => by
    by_cases h : p x = true
    · simp [List.filterMap_cons, List.filter_cons, h, filterMap_if_eq p f xs]
    · simp [List.filterMap_cons, List.filter_cons, h, filterMap_if_eq p f xs]

theorem includedCount_of_mem_block {attrs : List String} (hnd : attrs.Nodup)
    {k : Nat} {c : List (String × Bool)}
    (hc : c ∈ (combinations k attrs).filterMap (fun g =>
      if g.contains "channel" && g.contains "app_version" then
        some (attrs.map (fun a => (a, g.contains a)))
      else none)) :
    includedCount c = k := by
  rw [filterMap_if_eq] at hc
  rcases List.mem_map.mp hc with ⟨g, hg, rfl⟩
  have hg2 := List.mem_of_mem_filter hg
  rw [includedCount_combo hnd (sublist_of_mem_combinations k attrs g hg2)]
  exact length_of_mem_combinations k attrs g hg2

/-- C4 (amended): for every list of pairwise-distinct attributes, the
enumerator emits combinations in non-increasing order of
included-attribute count, and among combinations of the same included
count, in increasing lexicographic order of the index tuples of the
included attributes within the original attribute list.  (The original
claim without the distinctness requirement fails: see the
counterexample.) -/
theorem c4_combination_order (attributes : List String)
    (hnd : attributes.Nodup) :
    List.Pairwise
      (fun c1 c2 =>
        includedCount c2 ≤ includedCount c1 ∧
          (includedCount c1 = includedCount c2 →
            List.Lex (fun a b => a < b)
              (includedIndices c1) (includedIndices c2)))
      (attributeCombinations attributes) := by
  unfold attributeCombinations
  rw [List.pairwise_flatMap]
  constructor
  · intro k _
    rw [filterMap_if_eq, List.pairwise_map]
    refine ((pairwise_lex_combinations attributes hnd k).filter
      _).imp_of_mem ?_
    intro g1 g2 hg1 hg2 hlex
    have hm1 := List.mem_of_mem_filter hg1
    have hm2 := List.mem_of_mem_filter hg2
    have hs1 := sublist_of_mem_combinations k attributes g1 hm1
    have hs2 := sublist_of_mem_combinations k attributes g2 hm2
    have hcnt1 :
        includedCount (attributes.map (fun a => (a, g1.contains a))) = k := by
      rw [includedCount_combo hnd hs1]
      exact length_of_mem_combinations k attributes g1 hm1
    have hcnt2 :
        includedCount (attributes.map (fun a => (a, g2.contains a))) = k := by
      rw [includedCount_combo hnd hs2]
      exact length_of_mem_combinations k attributes g2 hm2
    constructor
    · rw [hcnt1, hcnt2]
    · intro _
      rw [includedIndices_map, includedIndices_map]
      exact hlex
  · rw [List.pairwise_reverse]
    refine (List.sorted_lt_range (attributes.length + 1)).imp ?_
    intro k1 k2 hlt c1 hc1 c2 hc2
    have h1 := includedCount_of_mem_block hnd hc1
    have h2 := includedCount_of_mem_block hnd hc2
    constructor
    · rw [h1, h2]
      exact Nat.le_of_lt hlt
    · intro heq
      rw [h1, h2] at heq
      exact absurd heq (Nat.ne_of_gt hlt)

/-- Witness for C4 at a concrete duplicate-free attribute list. -/
theorem c4_witness :
    (["os", "app_version", "channel"] : List String).Nodup ∧
      List.Pairwise
        (fun c1 c2 =>
          includedCount c2 ≤ includedCount c1 ∧
            (includedCount c1 = includedCount c2 →
              List.Lex (fun a b => a < b)
                (includedIndices c1) (includedIndices c2)))
        (attributeCombinations ["os", "app_version", "channel"]) :=
  ⟨by decide, c4_combination_order _ (by decide)⟩

/-- Counterexample for C4 as stated over arbitrary attribute lists: with
a duplicated attribute the emitted included-attribute counts are not
non-increasing (the enumerator emits counts 5, 5, 4, 5, ... here). -/
theorem c4_counterexample :
    ¬ List.Pairwise
      (fun c1 c2 =>
        includedCount c2 ≤ includedCount c1 ∧
          (includedCount c1 = includedCount c2 →
            List.Lex (fun a b => a < b)
              (includedIndices c1) (includedIndices c2)))
      (attributeCombinations ["a", "b", "a", "channel", "app_version"]) := by
  decide

/-- The predicate of the enumerator filter: a grouping is kept when it
contains both required attributes. -/
def requiredP (g : List String) : Bool :=
  g.contains "channel" && g.contains "app_version"

/-- Total number of groupings over all subset sizes satisfying `p`. -/
def countAll (p : List String → Bool) (l : List String) : Nat :=
  ((List.range (l.length + 1)).map
    (fun k => (combinations k l).countP p)).sum

theorem combinations_eq_nil_of_lt {α : Type} :
    ∀ (l : List α) (k : Nat), l.length < k → combinations k l = []
  | _, 0, h => absurd h (Nat.not_lt_zero _)
  | [], _ + 1, _ => rfl
  | x :: xs, k + 1, h => by
    have hxs : xs.length < k := Nat.lt_of_succ_lt_succ h
    rw [combinations, combinations_eq_nil_of_lt xs k hxs,
      combinations_eq_nil_of_lt xs (k + 1) (Nat.lt_succ_of_lt hxs)]
    rfl

theorem combinations_zero {α : Type} : ∀ l : List α, combinations 0 l = [[]]
  | [] => rfl
  | _ :: _ => rfl

theorem sum_map_add {α : Type} (f g : α → Nat) :
    ∀ l : List α,
      (l.map (fun a => f a + g a)).sum = (l.map f).sum + (l.map g).sum
  | [] => rfl
  | x :: xs => by
    rw [List.map_cons, List.map_cons, List.map_cons, List.sum_cons,
      List.sum_cons, List.sum_cons, sum_map_add f g xs]
    omega

theorem countAll_congr {p q : List String → Bool} (h : ∀ g, p g = q g)
    (l : List String) : countAll p l = countAll q l := by
  rw [show p = q from funext h]

theorem countAll_cons (p : List String → Bool) (x : String)
    (xs : List String) :
    countAll p (x :: xs) =
      countAll (fun g => p (x :: g)) xs + countAll p xs := by
  unfold countAll
  rw [show (x :: xs).length + 1 = xs.length + 1 + 1 from rfl]
  rw [List.range_succ_eq_map, List.map_cons, List.sum_cons, List.map_map]
  have hstep : ((fun k => (combinations k (x :: xs)).countP p) ∘ Nat.succ) =
      fun k => (combinations k xs).countP (fun g => p (x :: g)) +
        (combinations (k + 1) xs).countP p := by
    funext k
    show (combinations (k + 1) (x :: xs)).countP p = _
    rw [combinations, List.countP_append, List.countP_map]
    rfl
  rw [hstep, sum_map_add]
  have hB : ((List.range (xs.length + 1)).map
        (fun k => (combinations (k + 1) xs).countP p)).sum =
      ((List.range xs.length).map
        (fun k => (combinations (k + 1) xs).countP p)).sum := by
    rw [List.range_succ, List.map_append, List.sum_append]
    simp [combinations_eq_nil_of_lt xs (xs.length + 1) (Nat.lt_succ_self _)]
  have hxs : countAll p xs = (combinations 0 xs).countP p +
      ((List.range xs.length).map
        (fun k => (combinations (k + 1) xs).countP p)).sum := by
    unfold countAll
    rw [List.range_succ_eq_map, List.map_cons, List.sum_cons, List.map_map]
    rfl
  have hxs2 : ((List.range (xs.length + 1)).map
        (fun k => (combinations k xs).countP p)).sum =
      (combinations 0 xs).countP p +
        ((List.range xs.length).map
          (fun k => (combinations (k + 1) xs).countP p)).sum := by
    rw [List.range_succ_eq_map, List.map_cons, List.sum_cons, List.map_map]
    rfl
  rw [hB, hxs2]
  simp only [combinations_zero]
  omega

theorem countAll_true : ∀ l : List String, countAll (fun _ => true) l = 2 ^ l.length
  | [] => rfl
  | x :: xs => by
    rw [countAll_cons]
    show countAll (fun _ => true) xs + countAll (fun _ => true) xs = _
    rw [countAll_true xs]
    rw [show (x :: xs).length = xs.length + 1 from rfl, Nat.pow_succ]
    omega

theorem countAll_mono {p q : List String → Bool}
    (h : ∀ g, p g = true → q g = true) (l : List String) :
    countAll p l ≤ countAll q l := by
  unfold countAll
  refine List.sum_le_sum ?_
  intro k _
  exact List.countP_mono_left (fun g _ => h g)

theorem countAll_contains_zero (s : String) :
    ∀ l : List String, s ∉ l → countAll (fun g => g.contains s) l = 0
  | [], _ => rfl
  | x :: xs, hs => by
    rw [countAll_cons]
    have hsx : s ≠ x := fun h => hs (h ▸ List.mem_cons_self x xs)
    have h1 : countAll (fun g => (x :: g).contains s) xs =
        countAll (fun g => g.contains s) xs :=
      countAll_congr (fun g => by
        rw [List.contains_cons, beq_eq_false_iff_ne.mpr hsx, Bool.false_or]) xs
    rw [h1, countAll_contains_zero s xs (fun h => hs (List.mem_cons_of_mem x h))]

theorem countAll_contains (s : String) :
    ∀ l : List String, l.Nodup → s ∈ l →
      countAll (fun g => g.contains s) l = 2 ^ (l.length - 1)
  | [], _, hmem => absurd hmem (List.not_mem_nil s)
  | x :: xs, hnd, hmem => by
    obtain ⟨hx, hnd2⟩ := List.nodup_cons.mp hnd
    rw [countAll_cons]
    by_cases hxs : x = s
    · have hs_not : s ∉ xs := hxs ▸ hx
      have h1 : countAll (fun g => (x :: g).contains s) xs =
          countAll (fun _ => true) xs :=
        countAll_congr (fun g => by
          rw [hxs, List.contains_cons, beq_self_eq_true, Bool.true_or]) xs
      rw [h1, countAll_true, countAll_contains_zero s xs hs_not]
      rfl
    · have hsmem : s ∈ xs := by
        rcases List.mem_cons.mp hmem with h | h
        · exact absurd h.symm hxs
        · exact h
      have hsx : s ≠ x := fun h => hxs h.symm
      have h1 : countAll (fun g => (x :: g).contains s) xs =
          countAll (fun g => g.contains s) xs :=
        countAll_congr (fun g => by
          rw [List.contains_cons, beq_eq_false_iff_ne.mpr hsx, Bool.false_or]) xs
      rw [h1, countAll_contains s xs hnd2 hsmem]
      have hpos : 1 ≤ xs.length :=
        List.length_pos.mpr (List.ne_nil_of_mem hsmem)
      have hlen : (x :: xs).length - 1 = (xs.length - 1) + 1 := by
        rw [show (x :: xs).length = xs.length + 1 from rfl]
        omega
      rw [hlen, Nat.pow_succ]
      omega

theorem countAll_required_zero {s : String} (hs : s = "channel" ∨ s = "app_version")
    (l : List String) (hmem : s ∉ l) : countAll requiredP l = 0 := by
  have hle := countAll_mono (p := requiredP) (q := fun g => g.contains s)
    ?_ l
  · rw [countAll_contains_zero s l hmem] at hle
    exact Nat.le_zero.mp hle
  · intro g hg
    obtain ⟨h1, h2⟩ := Bool.and_eq_true_iff.mp hg
    rcases hs with h | h <;> rw [h]
    · exact h1
    · exact h2

theorem two_le_length_of_two_mem {l : List String} {a b : String}
    (hab : a ≠ b) (ha : a ∈ l) (hb : b ∈ l) : 2 ≤ l.length := by
  cases l with
  | nil => exact absurd ha (List.not_mem_nil a)
  | cons x xs =>
    have hxs : xs ≠ [] := by
      rcases List.mem_cons.mp ha with h1 | h1
      · rcases List.mem_cons.mp hb with h2 | h2
        · exact absurd (h1.trans h2.symm) hab
        · exact List.ne_nil_of_mem h2
      · exact List.ne_nil_of_mem h1
    have := List.length_pos.mpr hxs
    rw [show (x :: xs).length = xs.length + 1 from rfl]
    omega

theorem countAll_required :
    ∀ l : List String, l.Nodup → "channel" ∈ l → "app_version" ∈ l →
      countAll requiredP l = 2 ^ (l.length - 2)
  | [], _, hch, _ => absurd hch (List.not_mem_nil _)
  | x :: xs, hnd, hch, hav => by
    obtain ⟨hx, hnd2⟩ := List.nodup_cons.mp hnd
    rw [countAll_cons]
    by_cases hxc : x = "channel"
    · have hchn : "channel" ∉ xs := hxc ▸ hx
      have havx : "app_version" ∈ xs := by
        rcases List.mem_cons.mp hav with h | h
        · rw [hxc] at h
          exact absurd h (by decide)
        · exact h
      have h1 : countAll (fun g => requiredP (x :: g)) xs =
          countAll (fun g => g.contains "app_version") xs :=
        countAll_congr (fun g => by
          unfold requiredP
          rw [hxc, List.contains_cons, beq_self_eq_true, Bool.true_or,
            List.contains_cons,
            beq_eq_false_iff_ne.mpr (show "app_version" ≠ "channel" by decide),
            Bool.false_or, Bool.true_and]) xs
      rw [h1, countAll_contains _ xs hnd2 havx,
        countAll_required_zero (Or.inl rfl) xs hchn]
      rw [show (x :: xs).length = xs.length + 1 from rfl]
      rw [show xs.length + 1 - 2 = xs.length - 1 from by omega]
      omega
    · by_cases hxa : x = "app_version"
      · have havn : "app_version" ∉ xs := hxa ▸ hx
        have hchx : "channel" ∈ xs := by
          rcases List.mem_cons.mp hch with h | h
          · rw [hxa] at h
            exact absurd h (by decide)
          · exact h
        have h1 : countAll (fun g => requiredP (x :: g)) xs =
            countAll (fun g => g.contains "channel") xs :=
          countAll_congr (fun g => by
            unfold requiredP
            rw [hxa, List.contains_cons, List.contains_cons,
              beq_eq_false_iff_ne.mpr (show "channel" ≠ "app_version" by decide),
              Bool.false_or, beq_self_eq_true, Bool.true_or, Bool.and_true]) xs
        rw [h1, countAll_contains _ xs hnd2 hchx,
          countAll_required_zero (Or.inr rfl) xs havn]
        rw [show (x :: xs).length = xs.length + 1 from rfl]
        rw [show xs.length + 1 - 2 = xs.length - 1 from by omega]
        omega
      · have hchx : "channel" ∈ xs := by
          rcases List.mem_cons.mp hch with h | h
          · exact absurd h.symm hxc
          · exact h
        have havx : "app_version" ∈ xs := by
          rcases List.mem_cons.mp hav with h | h
          · exact absurd h.symm hxa
          · exact h
        have h1 : countAll (fun g => requiredP (x :: g)) xs =
            countAll requiredP xs :=
          countAll_congr (fun g => by
            unfold requiredP
            rw [List.contains_cons,
              beq_eq_false_iff_ne.mpr (fun h : "channel" = x => hxc h.symm),
              Bool.false_or, List.contains_cons,
              beq_eq_false_iff_ne.mpr (fun h : "app_version" = x => hxa h.symm),
              Bool.false_or]) xs
        rw [h1, countAll_required xs hnd2 hchx havx]
        have h2 : 2 ≤ xs.length :=
          two_le_length_of_two_mem (by decide) hchx havx
        rw [show (x :: xs).length = xs.length + 1 from rfl]
        rw [show xs.length + 1 - 2 = xs.length - 2 + 1 from by omega,
          Nat.pow_succ]
        omega

theorem length_attributeCombinations (attrs : List String) :
    (attributeCombinations attrs).length = countAll requiredP attrs := by
  have hlen : ∀ k : Nat,
      ((combinations k attrs).filterMap (fun g =>
        if g.contains "channel" && g.contains "app_version" then
          some (attrs.map (fun a => (a, g.contains a)))
        else none)).length = (combinations k attrs).countP requiredP := by
    intro k
    rw [filterMap_if_eq, List.length_map, List.countP_eq_length_filter]
    rfl
  unfold attributeCombinations countAll
  rw [List.length_flatMap, List.map_reverse, List.sum_reverse]
  congr 1
  apply List.map_congr_left
  intro k _
  exact hlen k

/-- C10: for every duplicate-free attribute list containing both
`channel` and `app_version`, the enumerator emits exactly
`2 ^ (len(attributes) - 2)` combinations — one per subset of the
attributes containing both required attributes. -/
theorem c10_combination_count (attributes : List String)
    (hnd : attributes.Nodup) (hch : "channel" ∈ attributes)
    (hav : "app_version" ∈ attributes) :
    (attributeCombinations attributes).length =
      2 ^ (attributes.length - 2) := by
  rw [length_attributeCombinations,
    countAll_required attributes hnd hch hav]

/-- Witness for C10 at the glean attribute list of the source. -/
theorem c10_witness :
    (attributeCombinations
        ["ping_type", "os", "app_version", "app_build_id", "channel"]).length =
      2 ^ ((["ping_type", "os", "app_version", "app_build_id", "channel"] :
        List String).length - 2) :=
  c10_combination_count _ (by decide) (by decide) (by decide)

end GlamEtl
